import Mathlib

/-!
Verification of the chickadee in-browser cooking-timer core.

The embedding below follows `src/js/timer.js` and `src/js/timeline.js`
(the step-ticket variant of the timer display code carries the
`firing` highlight logic).  JS millisecond timestamps are modelled as `Int`
(an absent or `null` numeric field is `Option.none`), minute offsets as `ℚ`
(the spec allows fractional minutes), and a thrown `JSON.parse` error as the
`Except.error` branch of each operation.
-/

namespace Chickadee

/-- A per-recipe timer state, with the fields written by `startTimer`,
`pauseTimer` and `resumeTimer` in timer.js.  `none` models a `null` or
absent field. -/
structure TimerState where
  startTime : Option Int
  servingSize : Int
  currentStepId : Option String
  isPaused : Bool
  pausedAt : Option Int
  deriving Repr, DecidableEq

/-- JS truthiness of a numeric-or-null field: `null`, absent and `0` are
falsy, every other number is truthy. -/
def numTruthy : Option Int → Bool
  | none => false
  | some n => n != 0

/-- JS arithmetic coercion of a numeric-or-null field: `null` coerces to `0`
in `+`/`-`. -/
def numVal : Option Int → Int
  | none => 0
  | some n => n

/-- The single string stored under `TimerManager.storageKey`: either a string
that `JSON.parse` rejects (a syntax error is thrown), or a parsed JSON object
mapping recipe slugs to timer states. -/
inductive StoredBlob
  | malformed
  | valid (entries : List (String × TimerState))
  deriving Repr, DecidableEq

/-- The result of `localStorage.getItem(storageKey)`: `none` when the key was
never written. -/
abbrev Storage := Option StoredBlob

/-- A JS exception propagating out of an operation (here only the
`JSON.parse` syntax error). -/
inductive JsError
  | parseError
  deriving Repr, DecidableEq

/-- Property lookup `parsed[recipeSlug] || null` on the parsed object. -/
def lookupEntry : List (String × TimerState) → String → Option TimerState
  | [], _ => none
  | (k, v) :: rest, slug => if k = slug then some v else lookupEntry rest slug

/-- Property assignment `parsed[recipeSlug] = state`: an existing key keeps
its position in the object, a new key is appended. -/
def setEntry : List (String × TimerState) → String → TimerState → List (String × TimerState)
  | [], slug, st => [(slug, st)]
  | (k, v) :: rest, slug, st =>
      if k = slug then (slug, st) :: rest else (k, v) :: setEntry rest slug st

/-- Property removal `delete parsed[recipeSlug]`. -/
def deleteEntry (entries : List (String × TimerState)) (slug : String) :
    List (String × TimerState) :=
  entries.filter (fun e => decide (e.1 ≠ slug))

/-- TimerManager.getState: returns `null` when nothing is stored, otherwise
parses the blob (a malformed blob makes `JSON.parse` throw) and looks the
slug up. -/
def getState (store : Storage) (slug : String) : Except JsError (Option TimerState) :=
  match store with
  | none => .ok none
  | some .malformed => .error .parseError
  | some (.valid entries) => .ok (lookupEntry entries slug)

/-- TimerManager.setState: read-modify-write of the outer mapping (a missing
blob is treated as the empty object, a malformed one makes `JSON.parse`
throw). -/
def setState (store : Storage) (slug : String) (st : TimerState) : Except JsError Storage :=
  match store with
  | none => .ok (some (.valid (setEntry [] slug st)))
  | some .malformed => .error .parseError
  | some (.valid entries) => .ok (some (.valid (setEntry entries slug st)))

/-- TimerManager.clearState: no-op when nothing is stored, otherwise removes
the slug from the mapping and writes it back. -/
def clearState (store : Storage) (slug : String) : Except JsError Storage :=
  match store with
  | none => .ok none
  | some .malformed => .error .parseError
  | some (.valid entries) => .ok (some (.valid (deleteEntry entries slug)))

/-- TimerManager.getElapsedMs: `0` without a state or truthy `startTime`;
the frozen `pausedAt - startTime` when `isPaused` and `pausedAt` are both
truthy; otherwise `Date.now() - startTime`. -/
def getElapsedMs (store : Storage) (slug : String) (now : Int) : Except JsError Int :=
  match getState store slug with
  | .error e => .error e
  | .ok none => .ok 0
  | .ok (some st) =>
    if !numTruthy st.startTime then .ok 0
    else if st.isPaused && numTruthy st.pausedAt then
      .ok (numVal st.pausedAt - numVal st.startTime)
    else .ok (now - numVal st.startTime)

/-- startTimer: stores a fresh running state with `startTime = Date.now()`. -/
def startTimer (store : Storage) (slug : String) (now : Int) (servingSize : Int) :
    Except JsError Storage :=
  setState store slug
    { startTime := some now, servingSize := servingSize, currentStepId := none,
      isPaused := false, pausedAt := none }

/-- pauseTimer: no-op without a stored state; otherwise sets `isPaused` and
records `pausedAt = Date.now()`. -/
def pauseTimer (store : Storage) (slug : String) (now : Int) : Except JsError Storage :=
  match getState store slug with
  | .error e => .error e
  | .ok none => .ok store
  | .ok (some st) => setState store slug { st with isPaused := true, pausedAt := some now }

/-- resumeTimer: no-op unless paused; otherwise shifts `startTime` forward by
the pause duration `Date.now() - pausedAt` and clears the pause fields. -/
def resumeTimer (store : Storage) (slug : String) (now : Int) : Except JsError Storage :=
  match getState store slug with
  | .error e => .error e
  | .ok none => .ok store
  | .ok (some st) =>
    if !st.isPaused then .ok store
    else
      setState store slug
        { st with startTime := some (numVal st.startTime + (now - numVal st.pausedAt)),
                  isPaused := false, pausedAt := none }

/-! Basic lemmas about the stored mapping. -/

theorem lookupEntry_setEntry_self (m : List (String × TimerState)) (slug : String)
    (st : TimerState) : lookupEntry (setEntry m slug st) slug = some st := by
  induction m with
  | nil => simp [setEntry, lookupEntry]
  | cons kv rest ih =>
    obtain ⟨k, v⟩ := kv
    by_cases hk : k = slug
    · simp [setEntry, hk, lookupEntry]
    · simp [setEntry, hk, lookupEntry, ih]

theorem lookupEntry_setEntry_other (m : List (String × TimerState)) (slug other : String)
    (st : TimerState) (h : other ≠ slug) :
    lookupEntry (setEntry m slug st) other = lookupEntry m other := by
  induction m with
  | nil => simp [setEntry, lookupEntry, Ne.symm h]
  | cons kv rest ih =>
    obtain ⟨k, v⟩ := kv
    by_cases hk : k = slug
    · subst hk
      simp [setEntry, lookupEntry, Ne.symm h]
    · simp [setEntry, hk, lookupEntry, ih]

theorem setEntry_setEntry (m : List (String × TimerState)) (slug : String)
    (st st' : TimerState) :
    setEntry (setEntry m slug st) slug st' = setEntry m slug st' := by
  induction m with
  | nil => simp [setEntry]
  | cons kv rest ih =>
    obtain ⟨k, v⟩ := kv
    by_cases hk : k = slug
    · simp [setEntry, hk]
    · simp [setEntry, hk, ih]

theorem lookupEntry_deleteEntry_self (m : List (String × TimerState)) (slug : String) :
    lookupEntry (deleteEntry m slug) slug = none := by
  induction m with
  | nil => simp [deleteEntry, lookupEntry]
  | cons kv rest ih =>
    obtain ⟨k, v⟩ := kv
    by_cases hk : k = slug
    · simpa [deleteEntry, hk, lookupEntry] using ih
    · simpa [deleteEntry, hk, lookupEntry] using ih

theorem lookupEntry_deleteEntry_other (m : List (String × TimerState)) (slug other : String)
    (h : other ≠ slug) :
    lookupEntry (deleteEntry m slug) other = lookupEntry m other := by
  induction m with
  | nil => simp [deleteEntry, lookupEntry]
  | cons kv rest ih =>
    obtain ⟨k, v⟩ := kv
    by_cases hk : k = slug
    · subst hk
      simpa [deleteEntry, lookupEntry, Ne.symm h] using ih
    · by_cases ho : k = other
      · subst ho
        simp [deleteEntry, List.filter_cons, hk, lookupEntry]
      · simpa [deleteEntry, List.filter_cons, hk, lookupEntry, ho] using ih

theorem setState_getState_self (store store' : Storage) (slug : String) (st : TimerState)
    (h : setState store slug st = .ok store') :
    getState store' slug = .ok (some st) := by
  match store with
  | none =>
    simp only [setState, Except.ok.injEq] at h
    subst h
    simp [getState, lookupEntry_setEntry_self]
  | some .malformed => simp [setState] at h
  | some (.valid entries) =>
    simp only [setState, Except.ok.injEq] at h
    subst h
    simp [getState, lookupEntry_setEntry_self]

theorem pauseTimer_eq (m : List (String × TimerState)) (slug : String) (now : Int) :
    pauseTimer (some (.valid m)) slug now =
      match lookupEntry m slug with
      | none => .ok (some (.valid m))
      | some st => .ok (some (.valid (setEntry m slug
          { st with isPaused := true, pausedAt := some now }))) := by
  cases hl : lookupEntry m slug <;> simp [pauseTimer, getState, hl, setState]

theorem resumeTimer_eq (m : List (String × TimerState)) (slug : String) (now : Int) :
    resumeTimer (some (.valid m)) slug now =
      match lookupEntry m slug with
      | none => .ok (some (.valid m))
      | some st =>
        if st.isPaused then
          .ok (some (.valid (setEntry m slug
            { st with startTime := some (numVal st.startTime + (now - numVal st.pausedAt)),
                      isPaused := false, pausedAt := none })))
        else .ok (some (.valid m)) := by
  cases hl : lookupEntry m slug with
  | none => simp [resumeTimer, getState, hl]
  | some st => cases hip : st.isPaused <;> simp [resumeTimer, getState, hl, setState, hip]

theorem resumeTimer_eq_some (m : List (String × TimerState)) (slug : String) (now : Int)
    (st : TimerState) (hl : lookupEntry m slug = some st) :
    resumeTimer (some (.valid m)) slug now =
      if st.isPaused then
        .ok (some (.valid (setEntry m slug
          { st with startTime := some (numVal st.startTime + (now - numVal st.pausedAt)),
                    isPaused := false, pausedAt := none })))
      else .ok (some (.valid m)) := by
  cases hip : st.isPaused <;> simp [resumeTimer, getState, hl, setState, hip]

/-! Claims about the TimerManager storage layer. -/

/-- C1 counterexample: on a malformed stored blob, getState does not return
"no state"; the JSON parse failure propagates to the caller. -/
theorem getState_malformed_raises :
    getState (some StoredBlob.malformed) "pasta" = .error JsError.parseError ∧
      getState (some StoredBlob.malformed) "pasta" ≠ .ok none := by
  refine ⟨rfl, ?_⟩
  simp [getState]

/-- C1 (amended): getState returns absent when the underlying storage value at
the top key is missing, but when that value is malformed JSON the parse
failure propagates (is thrown) to the caller rather than degrading to
"no state". -/
theorem getState_missing_absent_malformed_raises (slug : String) :
    getState none slug = .ok none ∧
      getState (some StoredBlob.malformed) slug = .error JsError.parseError :=
  ⟨rfl, rfl⟩

/-- C3: getElapsedMs returns 0 when there is no stored state or no startTime;
for a paused state (isPaused with a truthy pausedAt) it returns the frozen
pausedAt - startTime at every query time; for a running state it returns
now - startTime. -/
theorem getElapsedMs_spec (store : Storage) (slug : String) (now now' : Int) :
    (getState store slug = .ok none → getElapsedMs store slug now = .ok 0)
    ∧ (∀ st : TimerState, getState store slug = .ok (some st) → st.startTime = none →
        getElapsedMs store slug now = .ok 0)
    ∧ (∀ (st : TimerState) (s p : Int), getState store slug = .ok (some st) →
        st.startTime = some s → s ≠ 0 → st.isPaused = true → st.pausedAt = some p → p ≠ 0 →
        getElapsedMs store slug now = .ok (p - s) ∧ getElapsedMs store slug now' = .ok (p - s))
    ∧ (∀ (st : TimerState) (s : Int), getState store slug = .ok (some st) →
        st.startTime = some s → s ≠ 0 → st.isPaused = false →
        getElapsedMs store slug now = .ok (now - s)) := by
  refine ⟨fun h => ?_, fun st h hs => ?_, fun st s p h hs hs0 hp hpa hp0 => ?_,
    fun st s h hs hs0 hp => ?_⟩
  · simp [getElapsedMs, h]
  · simp [getElapsedMs, h, hs, numTruthy]
  · constructor <;> simp [getElapsedMs, h, hs, hp, hpa, numTruthy, numVal, hs0, hp0]
  · simp [getElapsedMs, h, hs, hp, numTruthy, numVal, hs0]

/-- C3 witness: a state paused at 5000 ms of elapsed time reports 5000 ms at
two very different query times. -/
theorem getElapsedMs_spec_witness :
    getElapsedMs (some (.valid [("pasta", ⟨some 10000, 4, none, true, some 15000⟩)]))
        "pasta" 999999 = .ok 5000
    ∧ getElapsedMs (some (.valid [("pasta", ⟨some 10000, 4, none, true, some 15000⟩)]))
        "pasta" 123 = .ok 5000 := by
  have h := (getElapsedMs_spec
      (some (.valid [("pasta", ⟨some 10000, 4, none, true, some 15000⟩)]))
      "pasta" 999999 123).2.2.1
    ⟨some 10000, 4, none, true, some 15000⟩ 10000 15000 rfl rfl (by decide) rfl rfl (by decide)
  norm_num at h
  exact h

/-- C9: clearing one recipe slug removes only that entry; any other slug's
stored state is retrieved unchanged afterwards. -/
theorem clearState_frame (store store' : Storage) (r1 r2 : String) (hne : r1 ≠ r2)
    (h : clearState store r1 = .ok store') :
    getState store' r1 = .ok none ∧ getState store' r2 = getState store r2 := by
  match store with
  | none =>
    simp only [clearState, Except.ok.injEq] at h
    subst h
    simp [getState]
  | some .malformed => simp [clearState] at h
  | some (.valid m) =>
    simp only [clearState, Except.ok.injEq] at h
    subst h
    exact ⟨by simp [getState, lookupEntry_deleteEntry_self],
      by simp [getState, lookupEntry_deleteEntry_other m r1 r2 (Ne.symm hne)]⟩

/-- C9 witness: clearing slug "a" in a two-recipe store leaves slug "b"
retrievable unchanged. -/
theorem clearState_frame_witness :
    getState (some (.valid [("b", ⟨some 2, 6, none, false, none⟩)])) "a" = .ok none
    ∧ getState (some (.valid [("b", ⟨some 2, 6, none, false, none⟩)])) "b"
        = getState (some (.valid [("a", ⟨some 1, 4, none, false, none⟩),
            ("b", ⟨some 2, 6, none, false, none⟩)])) "b" :=
  clearState_frame
    (some (.valid [("a", ⟨some 1, 4, none, false, none⟩),
      ("b", ⟨some 2, 6, none, false, none⟩)]))
    (some (.valid [("b", ⟨some 2, 6, none, false, none⟩)])) "a" "b" (by decide) rfl

/-- C10: when isPaused is set but pausedAt is absent, null or zero, the
paused branch is skipped and getElapsedMs returns now - startTime. -/
theorem getElapsedMs_paused_needs_truthy_pausedAt (store : Storage) (slug : String)
    (now : Int) (st : TimerState) (s : Int)
    (h : getState store slug = .ok (some st)) (hp : st.isPaused = true)
    (hs : st.startTime = some s) (hs0 : s ≠ 0)
    (hpa : st.pausedAt = none ∨ st.pausedAt = some 0) :
    getElapsedMs store slug now = .ok (now - s) := by
  rcases hpa with hpa | hpa <;>
    simp [getElapsedMs, h, hs, hp, hpa, numTruthy, numVal, hs0]

/-- C10 witness: isPaused true with a null pausedAt still tracks the wall
clock. -/
theorem getElapsedMs_paused_needs_truthy_pausedAt_witness :
    getElapsedMs (some (.valid [("r", ⟨some 10, 4, none, true, none⟩)])) "r" 25
      = .ok 15 := by
  have h := getElapsedMs_paused_needs_truthy_pausedAt
    (some (.valid [("r", ⟨some 10, 4, none, true, none⟩)])) "r" 25
    ⟨some 10, 4, none, true, none⟩ 10 rfl rfl rfl (by decide) (Or.inl rfl)
  norm_num at h
  exact h

/-- C5 counterexample: pausing a running state at time 1000 and pausing again
at time 2000 stores a different state (pausedAt is overwritten) than pausing
once, so pause is not idempotent under an advancing clock. -/
theorem pause_twice_changes_state :
    pauseTimer (some (.valid [("r", ⟨some 10, 4, none, false, none⟩)])) "r" 1000
      = .ok (some (.valid [("r", ⟨some 10, 4, none, true, some 1000⟩)]))
    ∧ pauseTimer (some (.valid [("r", ⟨some 10, 4, none, true, some 1000⟩)])) "r" 2000
      = .ok (some (.valid [("r", ⟨some 10, 4, none, true, some 2000⟩)]))
    ∧ (some (.valid [("r", ⟨some 10, 4, none, true, some 2000⟩)]) : Storage)
      ≠ some (.valid [("r", ⟨some 10, 4, none, true, some 1000⟩)]) :=
  ⟨rfl, rfl, by decide⟩

/-- C5 (amended): a second pause produces exactly the store that a single
pause at the second call's clock time would produce; in particular the stored
state is unchanged by the second call whenever the clock has not advanced
between the two calls. -/
theorem pause_absorbs_pause (store s1 : Storage) (slug : String) (t1 t2 : Int)
    (h : pauseTimer store slug t1 = .ok s1) :
    pauseTimer s1 slug t2 = pauseTimer store slug t2 := by
  match store with
  | none =>
    simp only [pauseTimer, getState, Except.ok.injEq] at h
    subst h
    rfl
  | some .malformed =>
    simp [pauseTimer, getState] at h
  | some (.valid m) =>
    rw [pauseTimer_eq] at h
    cases hl : lookupEntry m slug with
    | none =>
      rw [hl] at h
      simp only [Except.ok.injEq] at h
      subst h
      rfl
    | some st =>
      rw [hl] at h
      simp only [Except.ok.injEq] at h
      subst h
      rw [pauseTimer_eq, pauseTimer_eq, hl, lookupEntry_setEntry_self]
      simp [setEntry_setEntry]

/-- C5 witness: the amended law applied to a concrete running state paused at
1000 and again at 2000. -/
theorem pause_absorbs_pause_witness :
    pauseTimer (some (.valid [("r", ⟨some 10, 4, none, true, some 1000⟩)])) "r" 2000
      = pauseTimer (some (.valid [("r", ⟨some 10, 4, none, false, none⟩)])) "r" 2000 :=
  pause_absorbs_pause (some (.valid [("r", ⟨some 10, 4, none, false, none⟩)]))
    (some (.valid [("r", ⟨some 10, 4, none, true, some 1000⟩)])) "r" 1000 2000 rfl

/-- C7: the elapsed time reported immediately before a pause equals the
elapsed time reported immediately after the subsequent resume, for any pause
duration: resume advances startTime by exactly now - pausedAt. -/
theorem pause_resume_no_drift (store s1 s2 : Storage) (slug : String)
    (st : TimerState) (s tp tr : Int)
    (hget : getState store slug = .ok (some st))
    (hrun : st.isPaused = false)
    (hstart : st.startTime = some s) (hs : s ≠ 0)
    (hp : pauseTimer store slug tp = .ok s1)
    (hr : resumeTimer s1 slug tr = .ok s2)
    (hshift : s + (tr - tp) ≠ 0) :
    getElapsedMs store slug tp = .ok (tp - s)
    ∧ getElapsedMs s2 slug tr = .ok (tp - s) := by
  obtain ⟨sts, sz, cs, ip, pa⟩ := st
  simp only at hrun hstart
  subst hrun
  subst hstart
  refine ⟨by simp [getElapsedMs, hget, numTruthy, numVal, hs], ?_⟩
  match store with
  | none => simp [getState] at hget
  | some .malformed => simp [getState] at hget
  | some (.valid m) =>
    simp only [getState, Except.ok.injEq] at hget
    rw [pauseTimer_eq, hget] at hp
    simp only [Except.ok.injEq] at hp
    subst hp
    rw [resumeTimer_eq, lookupEntry_setEntry_self] at hr
    simp only [setEntry_setEntry, if_pos] at hr
    simp only [Except.ok.injEq] at hr
    subst hr
    simp only [getElapsedMs, getState, lookupEntry_setEntry_self, numTruthy, numVal]
    have harith : tr - (s + (tr - tp)) = tp - s := by ring
    simp [hshift, harith]

/-- C7 witness: start at 10, pause at 1000, resume at 1500: the elapsed time
is 990 ms on both sides of the pause. -/
theorem pause_resume_no_drift_witness :
    getElapsedMs (some (.valid [("r", ⟨some 10, 4, none, false, none⟩)])) "r" 1000
      = .ok 990
    ∧ getElapsedMs (some (.valid [("r", ⟨some 510, 4, none, false, none⟩)])) "r" 1500
      = .ok 990 := by
  have h := pause_resume_no_drift
    (some (.valid [("r", ⟨some 10, 4, none, false, none⟩)]))
    (some (.valid [("r", ⟨some 10, 4, none, true, some 1000⟩)]))
    (some (.valid [("r", ⟨some 510, 4, none, false, none⟩)]))
    "r" ⟨some 10, 4, none, false, none⟩ 10 1000 1500
    rfl rfl rfl (by decide) rfl rfl (by decide)
  norm_num at h
  exact h

/-- Timer stores reachable for a given slug from the Stopped state (no entry
stored under that slug) via the user-facing operations start, pause and
resume. -/
inductive Reachable (slug : String) : Storage → Prop
  | initMissing : Reachable slug none
  | initValid (m : List (String × TimerState)) (h : lookupEntry m slug = none) :
      Reachable slug (some (.valid m))
  | stepStart (store store' : Storage) (now sz : Int) : Reachable slug store →
      startTimer store slug now sz = .ok store' → Reachable slug store'
  | stepPause (store store' : Storage) (now : Int) : Reachable slug store →
      pauseTimer store slug now = .ok store' → Reachable slug store'
  | stepResume (store store' : Storage) (now : Int) : Reachable slug store →
      resumeTimer store slug now = .ok store' → Reachable slug store'

/-- C8: in every state reachable from Stopped via start, pause and resume,
pausedAt is present exactly when isPaused is true. -/
theorem reachable_pausedAt_iff_isPaused (slug : String) (store : Storage)
    (h : Reachable slug store) (st : TimerState)
    (hget : getState store slug = .ok (some st)) :
    st.pausedAt.isSome = st.isPaused := by
  induction h generalizing st with
  | initMissing => simp [getState] at hget
  | initValid m hm => simp [getState, hm] at hget
  | stepStart store store' now sz hre hop ih =>
    simp only [startTimer] at hop
    have hfresh := setState_getState_self store store' slug _ hop
    rw [hfresh] at hget
    simp only [Except.ok.injEq, Option.some.injEq] at hget
    subst hget
    rfl
  | stepPause store store' now hre hop ih =>
    match store with
    | none =>
      simp only [pauseTimer, getState, Except.ok.injEq] at hop
      subst hop
      simp [getState] at hget
    | some .malformed => simp [pauseTimer, getState] at hop
    | some (.valid m) =>
      rw [pauseTimer_eq] at hop
      cases hl : lookupEntry m slug with
      | none =>
        rw [hl] at hop
        simp only [Except.ok.injEq] at hop
        subst hop
        simp [getState, hl] at hget
      | some st0 =>
        rw [hl] at hop
        simp only [Except.ok.injEq] at hop
        subst hop
        simp only [getState, lookupEntry_setEntry_self, Except.ok.injEq,
          Option.some.injEq] at hget
        subst hget
        rfl
  | stepResume store store' now hre hop ih =>
    match store with
    | none =>
      simp only [resumeTimer, getState, Except.ok.injEq] at hop
      subst hop
      simp [getState] at hget
    | some .malformed => simp [resumeTimer, getState] at hop
    | some (.valid m) =>
      cases hl : lookupEntry m slug with
      | none =>
        rw [resumeTimer_eq, hl] at hop
        simp only [Except.ok.injEq] at hop
        subst hop
        simp [getState, hl] at hget
      | some st0 =>
        rw [resumeTimer_eq_some m slug now st0 hl] at hop
        by_cases hip : st0.isPaused = true
        · rw [if_pos hip] at hop
          simp only [Except.ok.injEq] at hop
          subst hop
          simp only [getState, lookupEntry_setEntry_self, Except.ok.injEq,
            Option.some.injEq] at hget
          subst hget
          rfl
        · rw [if_neg hip] at hop
          simp only [Except.ok.injEq] at hop
          subst hop
          exact ih st hget

/-- C8 witness: a freshly started state is reachable and satisfies the
invariant (pausedAt absent, isPaused false). -/
theorem reachable_pausedAt_iff_isPaused_witness :
    (⟨some 100, 4, none, false, none⟩ : TimerState).pausedAt.isSome
      = (⟨some 100, 4, none, false, none⟩ : TimerState).isPaused :=
  reachable_pausedAt_iff_isPaused "r"
    (some (.valid [("r", ⟨some 100, 4, none, false, none⟩)]))
    (Reachable.stepStart (some (.valid [])) _ 100 4
      (Reachable.initValid [] rfl) rfl)
    ⟨some 100, 4, none, false, none⟩ rfl

/-! Timeline data model and TimelineManager (timeline.js).  Minute offsets
are rationals: the spec allows fractional minutes. -/

/-- A timed cooking action (schema process.js): only the fields the engine
reads are modelled. -/
structure CookingAction where
  id : String
  startMinute : ℚ
  durationMinutes : Option ℚ
  isCriticalPath : Bool
  deriving Repr, DecidableEq

/-- A timeline item: a top-level action or a parallel block of actions. -/
inductive TimelineItem
  | action (a : CookingAction)
  | parallel (id : String) (startMinute : ℚ) (actions : List CookingAction)
  deriving Repr, DecidableEq

/-- The startMinute carried by either variant. -/
def itemStart : TimelineItem → ℚ
  | .action a => a.startMinute
  | .parallel _ s _ => s

/-- The filter predicate of getUpcomingSteps: both the action and the
parallel branch test startMinute > elapsedMinutes (the dead default branch
returns false). -/
def upcomingFilter (elapsedMinutes : ℚ) : TimelineItem → Bool
  | .action a => decide (elapsedMinutes < a.startMinute)
  | .parallel _ s _ => decide (elapsedMinutes < s)

/-- One step of the JS stable sort by the comparator
a.startMinute - b.startMinute: insert behind every element that must stay in
front (strictly smaller key, or an equal key seen earlier). -/
def insertByStart (x : TimelineItem) : List TimelineItem → List TimelineItem
  | [] => [x]
  | y :: ys => if itemStart x ≤ itemStart y then x :: y :: ys else y :: insertByStart x ys

/-- The JS Array.prototype.sort call of getUpcomingSteps: sort is stable
(ES2019), and a stable sort by a total key is unique, so the insertion sort
below is its exact model. -/
def sortByStart : List TimelineItem → List TimelineItem
  | [] => []
  | x :: xs => insertByStart x (sortByStart xs)

/-- TimelineManager.getUpcomingSteps: filter to items starting strictly after
the elapsed time, then sort ascending by startMinute. -/
def getUpcomingSteps (timeline : List TimelineItem) (elapsedMinutes : ℚ) :
    List TimelineItem :=
  sortByStart (timeline.filter (upcomingFilter elapsedMinutes))

/-- TimelineManager.getNextStep: head of the upcoming list, or nothing. -/
def getNextStep (timeline : List TimelineItem) (elapsedMinutes : ℚ) :
    Option TimelineItem :=
  (getUpcomingSteps timeline elapsedMinutes).head?

/-- One iteration of the getCurrentStep loop: a top-level action whose
window contains the elapsed time overwrites the accumulator. -/
def currentStepFold (elapsedMinutes : ℚ) (current : Option CookingAction) :
    TimelineItem → Option CookingAction
  | .action a =>
      if a.startMinute ≤ elapsedMinutes then
        if elapsedMinutes < a.startMinute + a.durationMinutes.getD 0 then some a
        else current
      else current
  | .parallel _ _ _ => current

/-- TimelineManager.getCurrentStep: loop over the timeline keeping the last
matching top-level action. -/
def getCurrentStep (timeline : List TimelineItem) (elapsedMinutes : ℚ) :
    Option CookingAction :=
  timeline.foldl (currentStepFold elapsedMinutes) none

/-- Spec-side predicate: the half-open window
[startMinute, startMinute + durationMinutes) contains the elapsed time
(duration defaults to 0). -/
def windowContains (a : CookingAction) (e : ℚ) : Bool :=
  decide (a.startMinute ≤ e) && decide (e < a.startMinute + a.durationMinutes.getD 0)

/-- Spec-side selector: a top-level action whose window contains the elapsed
time; parallel blocks contribute nothing. -/
def topMatch (e : ℚ) : TimelineItem → Option CookingAction
  | .action a => if windowContains a e then some a else none
  | .parallel _ _ _ => none

/-- Spec-side list of all top-level actions whose window contains the
elapsed time, in timeline order. -/
def topMatches (timeline : List TimelineItem) (e : ℚ) : List CookingAction :=
  timeline.filterMap (topMatch e)

theorem lastOption_cons {α : Type} (a : α) (l : List α) :
    (a :: l).getLast? = l.getLast?.or (some a) := by
  induction l generalizing a with
  | nil => rfl
  | cons b m ih =>
    rw [List.getLast?_cons_cons, ih b]
    cases m.getLast? <;> rfl

theorem or_some_absorb {α : Type} (x : Option α) (a : α) (c : Option α) :
    (x.or (some a)).or c = x.or (some a) := by
  cases x <;> rfl

theorem currentStep_foldl (e : ℚ) (T : List TimelineItem) (cur : Option CookingAction) :
    T.foldl (currentStepFold e) cur = ((topMatches T e).getLast?).or cur := by
  induction T generalizing cur with
  | nil => rfl
  | cons item rest ih =>
    rw [List.foldl_cons, ih]
    cases item with
    | parallel id s as =>
      simp [topMatches, List.filterMap_cons, topMatch, currentStepFold]
    | action a =>
      by_cases h1 : a.startMinute ≤ e
      · by_cases h2 : e < a.startMinute + a.durationMinutes.getD 0
        · have hw : windowContains a e = true := by simp [windowContains, h1, h2]
          simp only [topMatches, List.filterMap_cons, topMatch, hw, if_true,
            currentStepFold, if_pos h1, if_pos h2, lastOption_cons, or_some_absorb]
        · have hw : windowContains a e = false := by simp [windowContains, h2]
          simp [topMatches, List.filterMap_cons, topMatch, hw, currentStepFold,
            if_pos h1, if_neg h2]
      · have hw : windowContains a e = false := by simp [windowContains, h1]
        simp [topMatches, List.filterMap_cons, topMatch, hw, currentStepFold, if_neg h1]

/-- C2: getCurrentStep returns exactly the last top-level action (in timeline
order) whose window [startMinute, startMinute + durationMinutes) contains the
elapsed time, ignoring actions nested inside parallel blocks, and returns
nothing when no top-level action's window contains it. -/
theorem getCurrentStep_last_wins (T : List TimelineItem) (e : ℚ) :
    getCurrentStep T e = (topMatches T e).getLast? := by
  rw [getCurrentStep, currentStep_foldl]
  cases (topMatches T e).getLast? <;> rfl

/-- Scenario A of the spec: elapsed 2 is inside action a. -/
example :
    getCurrentStep [.action ⟨"a", 0, some 5, false⟩, .action ⟨"b", 5, some 3, false⟩] 2
      = some ⟨"a", 0, some 5, false⟩ := by
  norm_num [getCurrentStep, List.foldl, currentStepFold]

/-- Scenario B of the spec: elapsed 6 is inside action b. -/
example :
    getCurrentStep [.action ⟨"a", 0, some 5, false⟩, .action ⟨"b", 5, some 3, false⟩] 6
      = some ⟨"b", 5, some 3, false⟩ := by
  norm_num [getCurrentStep, List.foldl, currentStepFold]

/-- Scenario C of the spec: two fully overlapping actions, the last one
wins. -/
example :
    getCurrentStep [.action ⟨"x", 0, some 10, false⟩, .action ⟨"y", 0, some 10, false⟩] 1
      = some ⟨"y", 0, some 10, false⟩ := by
  norm_num [getCurrentStep, List.foldl, currentStepFold]

/-! Sortedness, permutation and stability of the upcoming-steps sort. -/

/-- Comparator order of the upcoming-steps sort. -/
def byStart (a b : TimelineItem) : Prop := itemStart a ≤ itemStart b

theorem mem_insertByStart (x b : TimelineItem) (l : List TimelineItem) :
    b ∈ insertByStart x l ↔ b = x ∨ b ∈ l := by
  induction l with
  | nil => simp [insertByStart]
  | cons y ys ih =>
    by_cases hxy : itemStart x ≤ itemStart y
    · simp [insertByStart, if_pos hxy, List.mem_cons]
    · simp only [insertByStart, if_neg hxy, List.mem_cons, ih]
      tauto

theorem perm_insertByStart (x : TimelineItem) (l : List TimelineItem) :
    List.Perm (insertByStart x l) (x :: l) := by
  induction l with
  | nil => simp [insertByStart]
  | cons y ys ih =>
    by_cases hxy : itemStart x ≤ itemStart y
    · simp [insertByStart, if_pos hxy]
    · have h1 : insertByStart x (y :: ys) = y :: insertByStart x ys := by
        simp [insertByStart, if_neg hxy]
      rw [h1]
      exact (ih.cons y).trans (List.Perm.swap x y ys)

theorem sorted_insertByStart (x : TimelineItem) (l : List TimelineItem)
    (h : List.Sorted byStart l) : List.Sorted byStart (insertByStart x l) := by
  induction l with
  | nil => simp [insertByStart, byStart]
  | cons y ys ih =>
    rw [List.sorted_cons] at h
    obtain ⟨hy, hys⟩ := h
    by_cases hxy : itemStart x ≤ itemStart y
    · simp only [insertByStart, if_pos hxy]
      rw [List.sorted_cons]
      refine ⟨?_, List.sorted_cons.mpr ⟨hy, hys⟩⟩
      intro b hb
      rcases List.mem_cons.mp hb with rfl | hb
      · exact hxy
      · exact le_trans hxy (hy b hb)
    · simp only [insertByStart, if_neg hxy]
      rw [List.sorted_cons]
      refine ⟨?_, ih hys⟩
      intro b hb
      rcases (mem_insertByStart x b ys).mp hb with rfl | hb
      · exact le_of_not_le hxy
      · exact hy b hb

theorem perm_sortByStart (l : List TimelineItem) : List.Perm (sortByStart l) l := by
  induction l with
  | nil => rfl
  | cons x xs ih =>
    show List.Perm (insertByStart x (sortByStart xs)) (x :: xs)
    exact (perm_insertByStart x _).trans (ih.cons x)

theorem sorted_sortByStart (l : List TimelineItem) :
    List.Sorted byStart (sortByStart l) := by
  induction l with
  | nil => simp [sortByStart]
  | cons x xs ih => exact sorted_insertByStart x _ ih

theorem filter_key_insertByStart (k : ℚ) (x : TimelineItem) (l : List TimelineItem) :
    (insertByStart x l).filter (fun i => decide (itemStart i = k))
      = if itemStart x = k then x :: l.filter (fun i => decide (itemStart i = k))
        else l.filter (fun i => decide (itemStart i = k)) := by
  induction l with
  | nil =>
    simp only [insertByStart, List.filter_cons, List.filter_nil]
    by_cases hx : itemStart x = k <;> simp [hx]
  | cons y ys ih =>
    by_cases hxy : itemStart x ≤ itemStart y
    · simp only [insertByStart, if_pos hxy, List.filter_cons]
      by_cases hx : itemStart x = k <;> by_cases hy : itemStart y = k <;> simp [hx, hy]
    · have hyx : itemStart y < itemStart x := lt_of_not_le hxy
      simp only [insertByStart, if_neg hxy, List.filter_cons, ih]
      by_cases hx : itemStart x = k
      · have hy : ¬ itemStart y = k := fun hy => absurd (hy.trans hx.symm) (ne_of_lt hyx)
        simp [hx, hy]
      · by_cases hy : itemStart y = k <;> simp [hx, hy]

theorem filter_key_sortByStart (k : ℚ) (l : List TimelineItem) :
    (sortByStart l).filter (fun i => decide (itemStart i = k))
      = l.filter (fun i => decide (itemStart i = k)) := by
  induction l with
  | nil => rfl
  | cons x xs ih =>
    show (insertByStart x (sortByStart xs)).filter _ = _
    rw [filter_key_insertByStart, ih, List.filter_cons]
    by_cases hx : itemStart x = k <;> simp [hx]

theorem upcomingFilter_eq (e : ℚ) (i : TimelineItem) :
    upcomingFilter e i = decide (e < itemStart i) := by
  cases i <;> rfl

/-- C4: upcomingSteps is sorted ascending by startMinute, is exactly (a
permutation of) the top-level items whose startMinute is strictly greater
than the elapsed time, and the tie-break is stable: for every key, the items
with that startMinute appear in their original relative order. -/
theorem upcomingSteps_spec (T : List TimelineItem) (e : ℚ) :
    List.Sorted byStart (getUpcomingSteps T e)
    ∧ List.Perm (getUpcomingSteps T e) (T.filter (fun i => decide (e < itemStart i)))
    ∧ ∀ k : ℚ, (getUpcomingSteps T e).filter (fun i => decide (itemStart i = k))
        = (T.filter (fun i => decide (e < itemStart i))).filter
            (fun i => decide (itemStart i = k)) := by
  have hfun : upcomingFilter e = fun i => decide (e < itemStart i) :=
    funext (upcomingFilter_eq e)
  refine ⟨sorted_sortByStart _, ?_, fun k => ?_⟩
  · rw [getUpcomingSteps, hfun]
    exact perm_sortByStart _
  · rw [getUpcomingSteps, hfun, filter_key_sortByStart]

/-! The per-tick next-step highlight (step-ticket timer display).  A step
card carries the dataset attributes the DOM loop reads. -/

/-- A step card in the rendered timeline, with its data attributes. -/
structure StepCard where
  startMinute : ℚ
  durationMinutes : ℚ
  deriving Repr, DecidableEq

/-- The loop condition of highlightNextStep: a card becomes the new
candidate when its remaining time startMinute - elapsedMinutes is strictly
positive and strictly below the current minimum (initially Infinity, the
`none` accumulator). -/
def betterCandidate (e : ℚ) (acc : Option (StepCard × ℚ)) (card : StepCard) : Bool :=
  match acc with
  | none => decide (0 < card.startMinute - e)
  | some (_, minR) =>
      decide (0 < card.startMinute - e) && decide (card.startMinute - e < minR)

/-- The forEach loop of highlightNextStep, accumulating the candidate card
and its remaining time. -/
def findNextGo (e : ℚ) : Option (StepCard × ℚ) → List StepCard → Option (StepCard × ℚ)
  | acc, [] => acc
  | acc, card :: rest =>
      findNextGo e
        (if betterCandidate e acc card then some (card, card.startMinute - e) else acc) rest

/-- The classes highlightNextStep puts on the chosen card. -/
structure HighlightResult where
  next : Option StepCard
  firing : Bool
  deriving Repr, DecidableEq

/-- highlightNextStep: scans every step card; the surviving candidate gets
the next marker, and additionally the firing marker when its remaining time
is below 0.5 minutes (30 seconds). -/
def highlightNextStep (cards : List StepCard) (e : ℚ) : HighlightResult :=
  match findNextGo e none cards with
  | none => { next := none, firing := false }
  | some (c, minR) => { next := some c, firing := decide (minR < 1 / 2) }

theorem betterCandidate_pos (e : ℚ) (acc : Option (StepCard × ℚ)) (card : StepCard)
    (h : betterCandidate e acc card = true) : 0 < card.startMinute - e := by
  cases acc with
  | none => simpa [betterCandidate] using h
  | some pr =>
    obtain ⟨c0, r0⟩ := pr
    simp only [betterCandidate, Bool.and_eq_true, decide_eq_true_eq] at h
    exact h.1

theorem findNextGo_sound (e : ℚ) (cards : List StepCard) :
    ∀ acc : Option (StepCard × ℚ),
      (∀ c r, acc = some (c, r) → r = c.startMinute - e ∧ 0 < r) →
      ∀ c r, findNextGo e acc cards = some (c, r) →
        (r = c.startMinute - e ∧ 0 < r) ∧ (c ∈ cards ∨ acc = some (c, r)) := by
  induction cards with
  | nil =>
    intro acc hacc c r hres
    exact ⟨hacc c r hres, Or.inr hres⟩
  | cons card rest ih =>
    intro acc hacc c r hres
    simp only [findNextGo] at hres
    by_cases hb : betterCandidate e acc card = true
    · rw [if_pos hb] at hres
      have hacc' : ∀ c0 r0, (some (card, card.startMinute - e) : Option (StepCard × ℚ))
          = some (c0, r0) → r0 = c0.startMinute - e ∧ 0 < r0 := by
        intro c0 r0 h0
        simp only [Option.some.injEq, Prod.mk.injEq] at h0
        obtain ⟨h1, h2⟩ := h0
        subst h1
        subst h2
        exact ⟨rfl, betterCandidate_pos e acc card hb⟩
      obtain ⟨hval, hmem⟩ := ih _ hacc' c r hres
      refine ⟨hval, ?_⟩
      rcases hmem with hmem | hmem
      · exact Or.inl (List.mem_cons_of_mem card hmem)
      · simp only [Option.some.injEq, Prod.mk.injEq] at hmem
        exact Or.inl (List.mem_cons.mpr (Or.inl hmem.1.symm))
    · rw [if_neg hb] at hres
      obtain ⟨hval, hmem⟩ := ih acc hacc c r hres
      refine ⟨hval, ?_⟩
      rcases hmem with hmem | hmem
      · exact Or.inl (List.mem_cons_of_mem card hmem)
      · exact Or.inr hmem

theorem findNextGo_min (e : ℚ) (cards : List StepCard) :
    ∀ (acc : Option (StepCard × ℚ)) (c : StepCard) (r : ℚ),
      findNextGo e acc cards = some (c, r) →
      (∀ c0 r0, acc = some (c0, r0) → r ≤ r0)
      ∧ ∀ d ∈ cards, 0 < d.startMinute - e → r ≤ d.startMinute - e := by
  induction cards with
  | nil =>
    intro acc c r hres
    refine ⟨fun c0 r0 h0 => ?_, by simp⟩
    rw [h0] at hres
    simp only [findNextGo, Option.some.injEq, Prod.mk.injEq] at hres
    exact le_of_eq hres.2.symm
  | cons card rest ih =>
    intro acc c r hres
    simp only [findNextGo] at hres
    by_cases hb : betterCandidate e acc card = true
    · rw [if_pos hb] at hres
      obtain ⟨hmin_acc, hmin_rest⟩ := ih _ c r hres
      have hcard : r ≤ card.startMinute - e := hmin_acc card _ rfl
      refine ⟨fun c0 r0 h0 => ?_, ?_⟩
      · have hlt : card.startMinute - e < r0 := by
          rw [h0] at hb
          simp only [betterCandidate, Bool.and_eq_true, decide_eq_true_eq] at hb
          exact hb.2
        exact le_trans hcard (le_of_lt hlt)
      · intro d hd hdp
        rcases List.mem_cons.mp hd with rfl | hd
        · exact hcard
        · exact hmin_rest d hd hdp
    · rw [if_neg hb] at hres
      obtain ⟨hmin_acc, hmin_rest⟩ := ih acc c r hres
      refine ⟨hmin_acc, ?_⟩
      intro d hd hdp
      rcases List.mem_cons.mp hd with rfl | hd
      · cases hacc : acc with
        | none =>
          rw [hacc] at hb
          simp [betterCandidate, hdp] at hb
        | some pr =>
          obtain ⟨c0, r0⟩ := pr
          rw [hacc] at hb
          simp only [betterCandidate, Bool.and_eq_true, decide_eq_true_eq, not_and,
            not_lt] at hb
          exact le_trans (hmin_acc c0 r0 hacc) (hb hdp)
      · exact hmin_rest d hd hdp

theorem findNextGo_none (e : ℚ) (cards : List StepCard) :
    ∀ acc, findNextGo e acc cards = none →
      acc = none ∧ ∀ d ∈ cards, d.startMinute - e ≤ 0 := by
  induction cards with
  | nil =>
    intro acc h
    exact ⟨h, by simp⟩
  | cons card rest ih =>
    intro acc h
    simp only [findNextGo] at h
    obtain ⟨hacc', hrest⟩ := ih _ h
    by_cases hb : betterCandidate e acc card = true
    · rw [if_pos hb] at hacc'
      cases hacc'
    · rw [if_neg hb] at hacc'
      subst hacc'
      refine ⟨rfl, ?_⟩
      intro d hd
      rcases List.mem_cons.mp hd with rfl | hd
      · simp only [betterCandidate, decide_eq_true_eq] at hb
        exact le_of_not_lt hb
      · exact hrest d hd

/-- C6: on a display tick, the card marked next is a card with strictly
positive remaining time startMinute - elapsedMinutes that is smallest among
all cards with strictly positive remaining time, and it is additionally
marked firing exactly when that remaining time is under 30 seconds (half a
minute); no card is marked when no remaining time is strictly positive. -/
theorem highlightNextStep_spec (cards : List StepCard) (e : ℚ) :
    (∀ c : StepCard, (highlightNextStep cards e).next = some c →
        c ∈ cards ∧ 0 < c.startMinute - e
        ∧ (∀ d ∈ cards, 0 < d.startMinute - e → c.startMinute - e ≤ d.startMinute - e)
        ∧ ((highlightNextStep cards e).firing = true ↔ c.startMinute - e < 1 / 2))
    ∧ ((highlightNextStep cards e).next = none → ∀ d ∈ cards, d.startMinute - e ≤ 0) := by
  constructor
  · intro c hc
    cases hres : findNextGo e none cards with
    | none =>
      rw [highlightNextStep, hres] at hc
      cases hc
    | some pr =>
      obtain ⟨c', r⟩ := pr
      rw [highlightNextStep, hres] at hc
      simp only [Option.some.injEq] at hc
      subst hc
      obtain ⟨⟨hr, hrpos⟩, hmem⟩ :=
        findNextGo_sound e cards none (by simp) c' r hres
      obtain ⟨_, hmin⟩ := findNextGo_min e cards none c' r hres
      rcases hmem with hmem | hmem
      · subst hr
        refine ⟨hmem, hrpos, hmin, ?_⟩
        rw [highlightNextStep, hres]
        simp
      · cases hmem
  · intro hc
    cases hres : findNextGo e none cards with
    | none => exact (findNextGo_none e cards none hres).2
    | some pr =>
      obtain ⟨c', r⟩ := pr
      rw [highlightNextStep, hres] at hc
      cases hc

/-- C6 witness: with cards starting at minutes 10 and 2 and elapsed time
1.75, the card at minute 2 is next (remaining 0.25 minutes, the minimum) and
is firing. -/
theorem highlightNextStep_spec_witness :
    (⟨2, 0⟩ : StepCard) ∈ [(⟨10, 0⟩ : StepCard), ⟨2, 0⟩]
    ∧ 0 < (⟨2, 0⟩ : StepCard).startMinute - 7 / 4
    ∧ (∀ d ∈ [(⟨10, 0⟩ : StepCard), ⟨2, 0⟩], 0 < d.startMinute - 7 / 4 →
        (⟨2, 0⟩ : StepCard).startMinute - 7 / 4 ≤ d.startMinute - 7 / 4)
    ∧ ((highlightNextStep [(⟨10, 0⟩ : StepCard), ⟨2, 0⟩] (7 / 4)).firing = true
        ↔ (⟨2, 0⟩ : StepCard).startMinute - 7 / 4 < 1 / 2) :=
  (highlightNextStep_spec [(⟨10, 0⟩ : StepCard), ⟨2, 0⟩] (7 / 4)).1 ⟨2, 0⟩ (by
    norm_num [highlightNextStep, findNextGo, betterCandidate])

end Chickadee
